import Mathlib

/-!
Shallow embedding of `src/codes/s1_zkp_for_dlog/src/lib.rs`, a non-interactive
zero-knowledge proof of knowledge of a discrete logarithm.

Modelling conventions:
* `crypto_bigint::Uint<LIMBS>` values are modelled as `Nat`; where the fixed
  bit width matters (`wrapping_sub`) the width `w` is an explicit parameter
  (in the source, `w = 64 * LIMBS`), and hypotheses `p < 2 ^ w` record that a
  `Uint` value always fits its width.
* `RemCaculateCache::pow_mod` delegates to Montgomery exponentiation
  (`DynResidue::pow`); it is embedded as binary square-and-multiply modular
  exponentiation, whose agreement with `base ^ exp % p` is proved below.
* `get_bit_by_hashing` feeds the fixed-width encodings of `h`, `generator`
  and `modulus` into BLAKE3 and takes the first digest byte modulo 2.  The
  hash itself is third-party code; it is modelled by an explicit function
  parameter `hb : Nat → Nat → Nat → Nat` standing for the first output byte
  as a function of the three inputs (the fixed-width encoding of values below
  `2 ^ w` is injective, so this loses nothing).  The `% 2` step is the part
  written in this repository and is kept explicit.
* The random draws of `prove` (one `r` per round, drawn below `p - 1`) are
  passed in explicitly as a list `rs`.
* A Rust panic (the `assert!(modulus > ONE)` and the `NonZero::new(..).unwrap()`
  inside `prove`) is modelled by `Option`: `none` is a panic, `some` a normal
  return.
-/

namespace ZkpDlog

/-- Number of verification rounds, `ROUND_OF_VERIFY` in the source. -/
def ROUND_OF_VERIFY : Nat := 100

/-- One round of the proof: a commitment `h = g^r mod p` and a response `s`,
mirroring `struct Proof` of the source. -/
structure Proof where
  h : Nat
  s : Nat
deriving DecidableEq

/-- Binary square-and-multiply modular exponentiation, the numeric behaviour of
`DynResidue::pow` used by `RemCaculateCache::pow_mod`.  The first argument
after `p` is fuel bounding the recursion depth (the exponent itself suffices). -/
def powModAux (p : Nat) : Nat → Nat → Nat → Nat → Nat
  | 0, _, acc, _ => acc
  | fuel + 1, base, acc, e =>
    if e = 0 then acc
    else powModAux p fuel (base * base % p) (if e % 2 = 1 then acc * base % p else acc) (e / 2)

/-- Embedding of `RemCaculateCache::pow_mod`. -/
def pow_mod (p base exp : Nat) : Nat :=
  powModAux p exp (base % p) (1 % p) exp

/-- Embedding of `RemCaculateCache::mul_mod`. -/
def mul_mod (p lhs rhs : Nat) : Nat := lhs * rhs % p

/-- Embedding of `crypto_bigint::Uint::add_mod` as used in `prove`: an exact
sum followed by a single conditional subtraction of the modulus `m` (correct
when the sum is below `2 * m`, which the library documents as a precondition). -/
def add_mod (a b m : Nat) : Nat := if a + b < m then a + b else a + b - m

/-- Embedding of `crypto_bigint::Uint::wrapping_sub` at bit width `w`. -/
def wrappingSub (w a b : Nat) : Nat := (a + (2 ^ w - b % 2 ^ w)) % 2 ^ w

/-- Embedding of `NonZero::new`: `none` feeds the panicking `unwrap` path. -/
def nonZeroNew (n : Nat) : Option Nat := if n = 0 then none else some n

/-- Embedding of `get_bit_by_hashing`: the parameter `hb` stands for the first
output byte of the BLAKE3 digest of the encodings of `h`, `g`, `p`; the
repository code reduces that byte modulo 2. -/
def get_bit_by_hashing (hb : Nat → Nat → Nat → Nat) (h g p : Nat) : Nat :=
  hb h g p % 2

/-- One iteration of the round loop of `prove`, at random draw `r`. -/
def proveRound (hb : Nat → Nat → Nat → Nat) (secret g p order r : Nat) : Proof :=
  { h := pow_mod p g r
    s := if get_bit_by_hashing hb (pow_mod p g r) g p > 0 then add_mod r secret order else r }

/-- The round list produced by the loop of `prove`, with the draws `rs` explicit. -/
def proveRounds (hb : Nat → Nat → Nat → Nat) (secret g p order : Nat) (rs : List Nat) :
    List Proof :=
  rs.map (proveRound hb secret g p order)

/-- Embedding of `prove` at bit width `w`, with the per-round random draws `rs`
explicit.  `none` models a panic: either the `assert!(modulus > ONE)` or the
`NonZero::new(p_minus_1).unwrap()`. -/
def prove (w : Nat) (hb : Nat → Nat → Nat → Nat) (secret g p : Nat) (rs : List Nat) :
    Option (Nat × List Proof) :=
  if p ≤ 1 then none
  else
    match nonZeroNew (wrappingSub w p 1) with
    | none => none
    | some order => some (pow_mod p g secret, proveRounds hb secret g p order rs)

/-- One round check of `verify`. -/
def checkRound (hb : Nat → Nat → Nat → Nat) (residue g p : Nat) (pr : Proof) : Bool :=
  let bit := get_bit_by_hashing hb pr.h g p
  let lhs := pow_mod p g pr.s
  let rhs := if bit > 0 then mul_mod p pr.h residue else pr.h
  lhs == rhs

/-- Embedding of `verify`: the length gate followed by the conjunction of the
per-round checks. -/
def verify (hb : Nat → Nat → Nat → Nat) (residue g p : Nat) (pfs : List Proof) : Bool :=
  if pfs.length ≠ ROUND_OF_VERIFY then false
  else pfs.all (checkRound hb residue g p)

/-- Constant hash-byte model used in witnesses: challenge bit always 0. -/
def hbZero : Nat → Nat → Nat → Nat := fun _ _ _ => 0

/-- Constant hash-byte model used in witnesses: challenge bit always 1. -/
def hbOne : Nat → Nat → Nat → Nat := fun _ _ _ => 1

/-- Multiplication under a modulus ignores a reduction of its left factor. -/
theorem mulModLeft (p X Y : Nat) : X % p * Y % p = X * Y % p := by
  rw [Nat.mul_mod (X % p) Y p, Nat.mod_mod_of_dvd X dvd_rfl, ← Nat.mul_mod]

/-- A reduced base of a power may be unreduced under an outer modulus. -/
theorem mulPowModRight (p A C k : Nat) : A * (C % p) ^ k % p = A * C ^ k % p := by
  conv_rhs => rw [Nat.mul_mod, Nat.pow_mod, ← Nat.mul_mod]

/-- The square-and-multiply loop computes `acc * base ^ e` modulo `p`, for any
fuel at least the exponent and any already-reduced accumulator. -/
theorem powModAux_spec (p : Nat) :
    ∀ fuel e base acc, e ≤ fuel → acc % p = acc →
      powModAux p fuel base acc e = acc * base ^ e % p := by
  intro fuel
  induction fuel with
  | zero =>
    intro e base acc he hacc
    have he0 : e = 0 := Nat.le_zero.mp he
    subst he0
    simpa [powModAux] using hacc.symm
  | succ n ih =>
    intro e base acc he hacc
    by_cases he0 : e = 0
    · subst he0
      simpa [powModAux] using hacc.symm
    · have hstep : powModAux p (n + 1) base acc e =
          powModAux p n (base * base % p)
            (if e % 2 = 1 then acc * base % p else acc) (e / 2) := by
        simp [powModAux, he0]
      have hle : e / 2 ≤ n := by omega
      have hacc2 : (if e % 2 = 1 then acc * base % p else acc) % p
          = (if e % 2 = 1 then acc * base % p else acc) := by
        split
        · exact Nat.mod_mod_of_dvd _ dvd_rfl
        · exact hacc
      rw [hstep, ih (e / 2) (base * base % p) _ hle hacc2, mulPowModRight]
      by_cases hpar : e % 2 = 1
      · rw [if_pos hpar, mulModLeft]
        have hpow : base * (base * base) ^ (e / 2) = base ^ e := by
          calc base * (base * base) ^ (e / 2)
              = base ^ 1 * (base ^ 2) ^ (e / 2) := by ring
            _ = base ^ (1 + 2 * (e / 2)) := by rw [← pow_mul, ← pow_add]
            _ = base ^ e := by congr 1; omega
        rw [mul_assoc, hpow]
      · rw [if_neg hpar]
        have hpow : (base * base) ^ (e / 2) = base ^ e := by
          calc (base * base) ^ (e / 2)
              = (base ^ 2) ^ (e / 2) := by ring
            _ = base ^ (2 * (e / 2)) := by rw [← pow_mul]
            _ = base ^ e := by congr 1; omega
        rw [hpow]

/-- Correctness of `pow_mod`: it computes `base ^ exp % p` for every modulus. -/
theorem pow_mod_spec (p base exp : Nat) : pow_mod p base exp = base ^ exp % p := by
  unfold pow_mod
  rw [powModAux_spec p exp exp (base % p) (1 % p) le_rfl (Nat.mod_mod_of_dvd 1 dvd_rfl),
    mulPowModRight, mulModLeft, one_mul]

/-- The result of `pow_mod` is a canonical residue. -/
theorem pow_mod_lt (p base exp : Nat) (hp : 0 < p) : pow_mod p base exp < p := by
  rw [pow_mod_spec]
  exact Nat.mod_lt _ hp

/-- The single conditional subtraction of `add_mod` preserves the residue of
the exact sum. -/
theorem add_mod_modEq (a b m : Nat) : add_mod a b m % m = (a + b) % m := by
  unfold add_mod
  split
  · rfl
  · have h : a + b = (a + b - m) + m := by omega
    conv_rhs => rw [h, Nat.add_mod_right]

/-- When both summands are below the modulus, `add_mod` is exactly the
mathematical sum modulo `m`. -/
theorem add_mod_eq_of_lt {a b m : Nat} (ha : a < m) (hb : b < m) :
    add_mod a b m = (a + b) % m := by
  unfold add_mod
  split
  · exact (Nat.mod_eq_of_lt (by omega)).symm
  · have h : (a + b) % m = (a + b - m) % m := by
      conv_lhs => rw [show a + b = (a + b - m) + m by omega, Nat.add_mod_right]
    rw [h, Nat.mod_eq_of_lt (by omega)]

/-- Raising `g` to an `add_mod`-reduced exponent does not change the residue,
provided `g ^ m ≡ 1` modulo `p`. -/
theorem pow_add_mod_exp (g m p r x : Nat) (hg : g ^ m % p = 1) :
    g ^ add_mod r x m % p = g ^ (r + x) % p := by
  unfold add_mod
  split
  · rfl
  · have h : r + x = (r + x - m) + m := by omega
    conv_rhs => rw [h, pow_add, Nat.mul_mod, hg, mul_one, Nat.mod_mod_of_dvd _ dvd_rfl]

/-- Under the preconditions of `prove`, `wrapping_sub` computes `p - 1`. -/
theorem wrappingSub_one {w p : Nat} (hp : 1 < p) (hw : p < 2 ^ w) :
    wrappingSub w p 1 = p - 1 := by
  unfold wrappingSub
  have h1 : (1 : Nat) % 2 ^ w = 1 := Nat.mod_eq_of_lt (by omega)
  rw [h1, show p + (2 ^ w - 1) = (p - 1) + 2 ^ w by omega, Nat.add_mod_right,
    Nat.mod_eq_of_lt (by omega)]

/-- Under its precondition, `prove` returns the residue `g ^ secret mod p`
and the mapped round list, with the exponent order `p - 1`. -/
theorem prove_eq (w : Nat) (hb : Nat → Nat → Nat → Nat) (secret g p : Nat)
    (rs : List Nat) (hp : 1 < p) (hw : p < 2 ^ w) :
    prove w hb secret g p rs
      = some (pow_mod p g secret, proveRounds hb secret g p (p - 1) rs) := by
  unfold prove
  rw [if_neg (by omega), wrappingSub_one hp hw]
  unfold nonZeroNew
  rw [if_neg (by omega)]

/-- Multiplication under a modulus ignores a reduction of its right factor. -/
theorem mulModRight (p X Y : Nat) : X * (Y % p) % p = X * Y % p := by
  rw [Nat.mul_mod X (Y % p) p, Nat.mod_mod_of_dvd Y dvd_rfl, ← Nat.mul_mod]

/-- An honestly generated round always passes the check against the honest
residue, as long as `g ^ (p - 1) ≡ 1` modulo `p`. -/
theorem checkRound_honest (hb : Nat → Nat → Nat → Nat) (secret g p r : Nat)
    (hg : g ^ (p - 1) % p = 1) :
    checkRound hb (pow_mod p g secret) g p (proveRound hb secret g p (p - 1) r) = true := by
  simp only [checkRound, proveRound]
  by_cases hbit : get_bit_by_hashing hb (pow_mod p g r) g p > 0
  · rw [if_pos hbit, if_pos hbit, beq_iff_eq]
    unfold mul_mod
    rw [pow_mod_spec, pow_mod_spec, pow_mod_spec, pow_add_mod_exp g (p - 1) p r secret hg,
      mulModLeft, mulModRight, ← pow_add]
  · rw [if_neg hbit, if_neg hbit]
    exact beq_self_eq_true _

/-- C1: for every secret, generator and modulus with `modulus > 1` and the
generator of multiplicative order exactly `modulus - 1`, and for every
sequence of 100 per-round random values drawn in `[0, modulus - 2]`, `verify`
accepts the output of `prove` — deterministically, on every trial. -/
theorem c1_completeness (w : Nat) (hb : Nat → Nat → Nat → Nat) (secret g p : Nat)
    (rs : List Nat) (hp : 1 < p) (hw : p < 2 ^ w)
    (hord : g ^ (p - 1) % p = 1 ∧ ∀ k, k < p - 1 → 0 < k → g ^ k % p ≠ 1)
    (hlen : rs.length = ROUND_OF_VERIFY) (hr : ∀ r ∈ rs, r ≤ p - 2) :
    prove w hb secret g p rs
      = some (pow_mod p g secret, proveRounds hb secret g p (p - 1) rs) ∧
    verify hb (pow_mod p g secret) g p (proveRounds hb secret g p (p - 1) rs) = true := by
  refine ⟨prove_eq w hb secret g p rs hp hw, ?_⟩
  unfold verify
  have hlen2 : (proveRounds hb secret g p (p - 1) rs).length = ROUND_OF_VERIFY := by
    simpa [proveRounds] using hlen
  rw [if_neg (not_not_intro hlen2)]
  refine List.all_eq_true.mpr ?_
  intro pr hpr
  obtain ⟨r, hrmem, rfl⟩ := List.mem_map.mp hpr
  exact checkRound_honest hb secret g p r hord.1

/-- Witness for C1 at `secret = 5`, `g = 2`, `p = 3`, all challenge bits 1. -/
theorem c1_completeness_witness :
    ((1 : Nat) < 3 ∧ (3 : Nat) < 2 ^ 8 ∧
      ((2 : Nat) ^ (3 - 1) % 3 = 1 ∧ ∀ k, k < 3 - 1 → 0 < k → (2 : Nat) ^ k % 3 ≠ 1) ∧
      (List.replicate 100 1).length = ROUND_OF_VERIFY ∧
      (∀ r ∈ List.replicate 100 1, r ≤ 3 - 2)) ∧
    (prove 8 hbOne 5 2 3 (List.replicate 100 1)
        = some (pow_mod 3 2 5, proveRounds hbOne 5 2 3 (3 - 1) (List.replicate 100 1)) ∧
      verify hbOne (pow_mod 3 2 5) 2 3 (proveRounds hbOne 5 2 3 (3 - 1) (List.replicate 100 1))
        = true) :=
  ⟨⟨by decide, by decide, ⟨by decide, by decide⟩, by decide, by decide⟩,
    c1_completeness 8 hbOne 5 2 3 (List.replicate 100 1) (by decide) (by decide)
      ⟨by decide, by decide⟩ (by decide) (by decide)⟩

/-- C3: `verify` rejects any proof whose round count is not `ROUND_OF_VERIFY`,
regardless of the content of the rounds. -/
theorem c3_length_gate (hb : Nat → Nat → Nat → Nat) (y g p : Nat) (pfs : List Proof)
    (hlen : pfs.length ≠ ROUND_OF_VERIFY) :
    verify hb y g p pfs = false := by
  unfold verify
  rw [if_pos hlen]

/-- Witness for C3 on the empty proof list. -/
theorem c3_length_gate_witness :
    ([] : List Proof).length ≠ ROUND_OF_VERIFY ∧ verify hbZero 0 0 0 [] = false :=
  ⟨by decide, c3_length_gate hbZero 0 0 0 [] (by decide)⟩

/-- A single round check holds exactly when the equation selected by the
challenge bit holds. -/
theorem checkRound_iff (hb : Nat → Nat → Nat → Nat) (y g p : Nat) (pr : Proof) :
    checkRound hb y g p pr = true ↔
      ((hb pr.h g p % 2 = 0 → g ^ pr.s % p = pr.h) ∧
        (hb pr.h g p % 2 = 1 → g ^ pr.s % p = pr.h * y % p)) := by
  simp only [checkRound, get_bit_by_hashing, mul_mod]
  rcases Nat.mod_two_eq_zero_or_one (hb pr.h g p) with h0 | h1
  · rw [h0, if_neg (by omega), beq_iff_eq, pow_mod_spec]
    constructor
    · intro he
      exact ⟨fun _ => he, fun hc => by omega⟩
    · rintro ⟨ha, _⟩
      exact ha rfl
  · rw [h1, if_pos (by omega), beq_iff_eq, pow_mod_spec]
    constructor
    · intro he
      exact ⟨fun hc => by omega, fun _ => he⟩
    · rintro ⟨_, ha⟩
      exact ha rfl

/-- C4: for a proof of length exactly 100, `verify` returns true if and only
if every round satisfies the equation selected by its derived challenge bit;
the overall result is the conjunction of the per-round checks. -/
theorem c4_round_characterization (hb : Nat → Nat → Nat → Nat) (y g p : Nat)
    (pfs : List Proof) (hlen : pfs.length = ROUND_OF_VERIFY) :
    verify hb y g p pfs = true ↔
      ∀ pr ∈ pfs,
        ((hb pr.h g p % 2 = 0 → g ^ pr.s % p = pr.h) ∧
          (hb pr.h g p % 2 = 1 → g ^ pr.s % p = pr.h * y % p)) := by
  unfold verify
  rw [if_neg (not_not_intro hlen), List.all_eq_true]
  constructor
  · intro hall pr hpr
    exact (checkRound_iff hb y g p pr).mp (hall pr hpr)
  · intro hall pr hpr
    exact (checkRound_iff hb y g p pr).mpr (hall pr hpr)

/-- Witness for C4 on a concrete proof of length 100. -/
theorem c4_round_characterization_witness :
    (List.replicate 100 (⟨1, 0⟩ : Proof)).length = ROUND_OF_VERIFY ∧
    (verify hbZero 2 2 3 (List.replicate 100 ⟨1, 0⟩) = true ↔
      ∀ pr ∈ List.replicate 100 (⟨1, 0⟩ : Proof),
        ((hbZero pr.h 2 3 % 2 = 0 → 2 ^ pr.s % 3 = pr.h) ∧
          (hbZero pr.h 2 3 % 2 = 1 → 2 ^ pr.s % 3 = pr.h * 2 % 3))) :=
  ⟨by decide, c4_round_characterization hbZero 2 2 3 (List.replicate 100 ⟨1, 0⟩) (by decide)⟩

/-- C5: `prove` with `modulus ≤ 1` panics (modelled as `none`) and never
returns a value. -/
theorem c5_precondition_panic (w : Nat) (hb : Nat → Nat → Nat → Nat)
    (secret g p : Nat) (rs : List Nat) (hp : p ≤ 1) :
    prove w hb secret g p rs = none := by
  unfold prove
  rw [if_pos hp]

/-- Witness for C5 at `modulus = 1`. -/
theorem c5_precondition_panic_witness :
    (1 : Nat) ≤ 1 ∧ prove 8 hbZero 0 2 1 [] = none :=
  ⟨by decide, c5_precondition_panic 8 hbZero 0 2 1 [] (by decide)⟩

/-- C8: the modular-arithmetic helpers compute canonical residues: `pow_mod`
is `base ^ exp mod p`, `mul_mod` is `a * b mod p`, both fully reduced. -/
theorem c8_modular_ops (p base exp a b : Nat) (hodd : p % 2 = 1) (hp : 1 < p) :
    pow_mod p base exp = base ^ exp % p ∧ pow_mod p base exp < p ∧
    mul_mod p a b = a * b % p ∧ mul_mod p a b < p := by
  refine ⟨pow_mod_spec p base exp, pow_mod_lt p base exp (by omega), rfl, ?_⟩
  unfold mul_mod
  exact Nat.mod_lt _ (by omega)

/-- Witness for C8 at `p = 5`. -/
theorem c8_modular_ops_witness :
    ((5 : Nat) % 2 = 1 ∧ (1 : Nat) < 5) ∧
    (pow_mod 5 3 4 = 3 ^ 4 % 5 ∧ pow_mod 5 3 4 < 5 ∧
      mul_mod 5 3 4 = 3 * 4 % 5 ∧ mul_mod 5 3 4 < 5) :=
  ⟨⟨by decide, by decide⟩, c8_modular_ops 5 3 4 3 4 (by decide) (by decide)⟩

/-- C9: the challenge-bit derivation is a pure function of its inputs — two
calls on identical inputs agree — and its result is always 0 or 1. -/
theorem c9_bit_deterministic (hb : Nat → Nat → Nat → Nat) (h g p h2 g2 p2 : Nat)
    (hh : h2 = h) (hgg : g2 = g) (hpp : p2 = p) :
    get_bit_by_hashing hb h2 g2 p2 = get_bit_by_hashing hb h g p ∧
    (get_bit_by_hashing hb h g p = 0 ∨ get_bit_by_hashing hb h g p = 1) := by
  subst hh
  subst hgg
  subst hpp
  exact ⟨rfl, Nat.mod_two_eq_zero_or_one _⟩

/-- Witness for C9 on concrete inputs. -/
theorem c9_bit_deterministic_witness :
    ((7 : Nat) = 7 ∧ (2 : Nat) = 2 ∧ (31 : Nat) = 31) ∧
    (get_bit_by_hashing hbOne 7 2 31 = get_bit_by_hashing hbOne 7 2 31 ∧
      (get_bit_by_hashing hbOne 7 2 31 = 0 ∨ get_bit_by_hashing hbOne 7 2 31 = 1)) :=
  ⟨⟨rfl, rfl, rfl⟩, c9_bit_deterministic hbOne 7 2 31 7 2 31 rfl rfl rfl⟩

/-- C10: whenever `prove` passes its `modulus > 1` assertion (and the modulus
fits its width, as every `Uint` value does), the wrapping subtraction
`modulus - 1` is nonzero, `NonZero::new` succeeds, and `prove` returns
normally: the assertion is the only panic path. -/
theorem c10_no_unwrap_panic (w : Nat) (hb : Nat → Nat → Nat → Nat)
    (secret g p : Nat) (rs : List Nat) (hp : 1 < p) (hw : p < 2 ^ w) :
    wrappingSub w p 1 ≠ 0 ∧ nonZeroNew (wrappingSub w p 1) = some (p - 1) ∧
    (prove w hb secret g p rs).isSome = true := by
  have h1 : wrappingSub w p 1 = p - 1 := wrappingSub_one hp hw
  have h2 : wrappingSub w p 1 ≠ 0 := by
    rw [h1]
    omega
  have h3 : nonZeroNew (wrappingSub w p 1) = some (p - 1) := by
    rw [h1]
    unfold nonZeroNew
    rw [if_neg (by omega)]
  refine ⟨h2, h3, ?_⟩
  rw [prove_eq w hb secret g p rs hp hw]
  rfl

/-- Witness for C10 at `p = 5`, width 8. -/
theorem c10_no_unwrap_panic_witness :
    ((1 : Nat) < 5 ∧ (5 : Nat) < 2 ^ 8) ∧
    (wrappingSub 8 5 1 ≠ 0 ∧ nonZeroNew (wrappingSub 8 5 1) = some (5 - 1) ∧
      (prove 8 hbZero 3 2 5 [0, 1, 2]).isSome = true) :=
  ⟨⟨by decide, by decide⟩,
    c10_no_unwrap_panic 8 hbZero 3 2 5 [0, 1, 2] (by decide) (by decide)⟩

/-- Counterexample to C6 as stated: at `p = 3` with `secret = 4 ≥ p - 1`, the
single conditional subtraction of `add_mod` leaves a response `s = 2` outside
`[0, p - 2]`, and different from `(r + secret) mod (p - 1) = 0`. -/
theorem c6_response_range_counterexample :
    prove 8 hbOne 4 2 3 (List.replicate 100 0)
      = some (1, List.replicate 100 ⟨1, 2⟩) ∧
    ∃ pr ∈ List.replicate 100 (⟨1, 2⟩ : Proof), ¬(pr.s ≤ 3 - 2) ∧ pr.s ≠ (0 + 4) % (3 - 1) := by
  refine ⟨by decide, ⟨1, 2⟩, by decide, by decide, by decide⟩

/-- C6 amended: for every secret in `[0, p - 2]`, generator, modulus `p > 1`,
and random draws in `[0, p - 2]`, each emitted response is `r` when the bit is
0 and `(r + secret) mod (p - 1)` when the bit is 1, hence lies in `[0, p - 2]`. -/
theorem c6_response_range (w : Nat) (hb : Nat → Nat → Nat → Nat) (secret g p : Nat)
    (rs : List Nat) (hp : 1 < p) (hw : p < 2 ^ w) (hsec : secret ≤ p - 2)
    (hr : ∀ r ∈ rs, r ≤ p - 2) :
    prove w hb secret g p rs
      = some (pow_mod p g secret, proveRounds hb secret g p (p - 1) rs) ∧
    proveRounds hb secret g p (p - 1) rs
      = rs.map (fun r => ⟨pow_mod p g r,
          if get_bit_by_hashing hb (pow_mod p g r) g p = 0 then r
          else (r + secret) % (p - 1)⟩) ∧
    ∀ pr ∈ proveRounds hb secret g p (p - 1) rs, pr.s ≤ p - 2 := by
  have hmap : proveRounds hb secret g p (p - 1) rs
      = rs.map (fun r => ⟨pow_mod p g r,
          if get_bit_by_hashing hb (pow_mod p g r) g p = 0 then r
          else (r + secret) % (p - 1)⟩) := by
    refine List.map_congr_left ?_
    intro r hrmem
    have hrlt : r < p - 1 := by
      have := hr r hrmem
      omega
    have hseclt : secret < p - 1 := by omega
    unfold proveRound
    rcases Nat.mod_two_eq_zero_or_one (hb (pow_mod p g r) g p) with h0 | h1
    · have hbit0 : get_bit_by_hashing hb (pow_mod p g r) g p = 0 := h0
      rw [if_neg (by rw [hbit0]; omega), if_pos hbit0]
    · have hbit1 : get_bit_by_hashing hb (pow_mod p g r) g p = 1 := h1
      rw [if_pos (by rw [hbit1]; omega), if_neg (by rw [hbit1]; omega),
        add_mod_eq_of_lt hrlt hseclt]
  refine ⟨prove_eq w hb secret g p rs hp hw, hmap, ?_⟩
  intro pr hpr
  rw [hmap] at hpr
  obtain ⟨r, hrmem, rfl⟩ := List.mem_map.mp hpr
  have hrle := hr r hrmem
  split
  · exact hrle
  · show (r + secret) % (p - 1) ≤ p - 2
    have : (r + secret) % (p - 1) < p - 1 := Nat.mod_lt _ (by omega)
    omega

/-- Witness for the amended C6 at `p = 5`, `secret = 3`, mixed draws. -/
theorem c6_response_range_witness :
    ((1 : Nat) < 5 ∧ (5 : Nat) < 2 ^ 8 ∧ (3 : Nat) ≤ 5 - 2 ∧
      (∀ r ∈ List.replicate 100 2, r ≤ 5 - 2)) ∧
    (prove 8 hbOne 3 2 5 (List.replicate 100 2)
        = some (pow_mod 5 2 3, proveRounds hbOne 3 2 5 (5 - 1) (List.replicate 100 2)) ∧
      proveRounds hbOne 3 2 5 (5 - 1) (List.replicate 100 2)
        = (List.replicate 100 2).map (fun r => ⟨pow_mod 5 2 r,
            if get_bit_by_hashing hbOne (pow_mod 5 2 r) 2 5 = 0 then r
            else (r + 3) % (5 - 1)⟩) ∧
      ∀ pr ∈ proveRounds hbOne 3 2 5 (5 - 1) (List.replicate 100 2), pr.s ≤ 5 - 2) :=
  ⟨⟨by decide, by decide, by decide, by decide⟩,
    c6_response_range 8 hbOne 3 2 5 (List.replicate 100 2) (by decide) (by decide)
      (by decide) (by decide)⟩

/-- Counterexample to C7 as stated, in two scenarios.  First, with `g = 0`
(the claim has no hypothesis on the generator), an honestly generated proof
for `secret = 1` passes `verify` against the wrong residue `1 ≠ 0 = g ^ secret
mod p`, even though every round has challenge bit 1.  Second, even with `g = 2`
of true order `p - 1` at `p = 3`, the residue `5` differs from `g ^ secret mod
p = 2` as an integer but not modulo `p`, and the honest proof again passes. -/
theorem c7_wrong_residue_counterexample :
    (prove 8 hbOne 1 0 5 (List.replicate 100 1)
        = some (0, List.replicate 100 ⟨0, 2⟩) ∧
      (1 : Nat) ≠ 0 ^ 1 % 5 ∧
      (∃ pr ∈ List.replicate 100 (⟨0, 2⟩ : Proof), hbOne pr.h 0 5 % 2 = 1 ∧
        checkRound hbOne 1 0 5 pr = true) ∧
      verify hbOne 1 0 5 (List.replicate 100 ⟨0, 2⟩) = true) ∧
    (prove 8 hbOne 1 2 3 (List.replicate 100 1)
        = some (2, List.replicate 100 ⟨2, 0⟩) ∧
      (5 : Nat) ≠ 2 ^ 1 % 3 ∧
      (∃ pr ∈ List.replicate 100 (⟨2, 0⟩ : Proof), hbOne pr.h 2 3 % 2 = 1 ∧
        checkRound hbOne 5 2 3 pr = true) ∧
      verify hbOne 5 2 3 (List.replicate 100 ⟨2, 0⟩) = true) := by
  refine ⟨⟨by decide, by decide, ⟨⟨0, 2⟩, by decide, by decide, by decide⟩, by decide⟩,
    ⟨by decide, by decide, ⟨⟨2, 0⟩, by decide, by decide, by decide⟩, by decide⟩⟩

/-- C7 amended: with `g` of multiplicative order exactly `p - 1` and a wrong
residue (different from `g ^ secret mod p` modulo `p`), every round of an
honestly generated proof whose challenge bit is 1 fails its check, and
`verify` returns false whenever at least one round has bit 1. -/
theorem c7_wrong_residue (w : Nat) (hb : Nat → Nat → Nat → Nat) (secret g p y2 : Nat)
    (rs : List Nat) (hp : 1 < p) (hw : p < 2 ^ w)
    (hord : g ^ (p - 1) % p = 1 ∧ ∀ k, k < p - 1 → 0 < k → g ^ k % p ≠ 1)
    (hy : y2 % p ≠ g ^ secret % p) :
    prove w hb secret g p rs
      = some (pow_mod p g secret, proveRounds hb secret g p (p - 1) rs) ∧
    (∀ pr ∈ proveRounds hb secret g p (p - 1) rs,
        hb pr.h g p % 2 = 1 → checkRound hb y2 g p pr = false) ∧
    ((∃ pr ∈ proveRounds hb secret g p (p - 1) rs, hb pr.h g p % 2 = 1) →
      verify hb y2 g p (proveRounds hb secret g p (p - 1) rs) = false) := by
  have hcop1 : Nat.gcd p (g ^ (p - 1)) = 1 := by
    rw [Nat.gcd_rec, hord.1]
    exact Nat.gcd_one_left p
  have hcopg : Nat.Coprime p g :=
    (Nat.coprime_pow_right_iff (by omega) p g).mp hcop1
  have hperround : ∀ pr ∈ proveRounds hb secret g p (p - 1) rs,
      hb pr.h g p % 2 = 1 → checkRound hb y2 g p pr = false := by
    intro pr hpr hbit1
    obtain ⟨r, hrmem, rfl⟩ := List.mem_map.mp hpr
    simp only [proveRound] at hbit1 ⊢
    have hbitpos : get_bit_by_hashing hb (pow_mod p g r) g p > 0 := by
      unfold get_bit_by_hashing
      omega
    rw [if_pos hbitpos]
    cases hcr : checkRound hb y2 g p ⟨pow_mod p g r, add_mod r secret (p - 1)⟩ with
    | false => rfl
    | true =>
      exfalso
      have heq : g ^ add_mod r secret (p - 1) % p = pow_mod p g r * y2 % p :=
        ((checkRound_iff hb y2 g p ⟨pow_mod p g r, add_mod r secret (p - 1)⟩).mp hcr).2 hbit1
      rw [pow_add_mod_exp g (p - 1) p r secret hord.1, pow_mod_spec, mulModLeft,
        pow_add] at heq
      have hcancel : g ^ secret ≡ y2 [MOD p] :=
        Nat.ModEq.cancel_left_of_coprime (hcopg.pow_right r) heq
      exact hy hcancel.symm
  refine ⟨prove_eq w hb secret g p rs hp hw, hperround, ?_⟩
  rintro ⟨pr, hpr, hbit1⟩
  have hfalse := hperround pr hpr hbit1
  unfold verify
  by_cases hlen : (proveRounds hb secret g p (p - 1) rs).length ≠ ROUND_OF_VERIFY
  · rw [if_pos hlen]
  · rw [if_neg hlen]
    cases hall : (proveRounds hb secret g p (p - 1) rs).all (checkRound hb y2 g p) with
    | false => rfl
    | true =>
      exact absurd (List.all_eq_true.mp hall pr hpr) (by simp [hfalse])

/-- Witness for the amended C7 at `p = 3`, `g = 2`, wrong residue 1. -/
theorem c7_wrong_residue_witness :
    ((1 : Nat) < 3 ∧ (3 : Nat) < 2 ^ 8 ∧
      ((2 : Nat) ^ (3 - 1) % 3 = 1 ∧ ∀ k, k < 3 - 1 → 0 < k → (2 : Nat) ^ k % 3 ≠ 1) ∧
      (1 : Nat) % 3 ≠ 2 ^ 1 % 3) ∧
    (prove 8 hbOne 1 2 3 (List.replicate 100 1)
        = some (pow_mod 3 2 1, proveRounds hbOne 1 2 3 (3 - 1) (List.replicate 100 1)) ∧
      (∀ pr ∈ proveRounds hbOne 1 2 3 (3 - 1) (List.replicate 100 1),
          hbOne pr.h 2 3 % 2 = 1 → checkRound hbOne 1 2 3 pr = false) ∧
      ((∃ pr ∈ proveRounds hbOne 1 2 3 (3 - 1) (List.replicate 100 1),
          hbOne pr.h 2 3 % 2 = 1) →
        verify hbOne 1 2 3 (proveRounds hbOne 1 2 3 (3 - 1) (List.replicate 100 1))
          = false)) :=
  ⟨⟨by decide, by decide, ⟨by decide, by decide⟩, by decide⟩,
    c7_wrong_residue 8 hbOne 1 2 3 1 (List.replicate 100 1) (by decide) (by decide)
      ⟨by decide, by decide⟩ (by decide)⟩

end ZkpDlog
